import Mathlib

/-!
Shallow embedding of the sequence-codec core of this repository
(`src/core.py`: `encode_string`, `encode_sequences`) and proofs of the
specification's claims about it.

Python integers are `Int`; Python strings are `String` (a `List Char` of
unicode scalars, matching Python's code-point iteration); the numpy grid is a
`List (List Int)` in row-major order; a raised exception is the `.error` case
of `Except Err`.
-/

namespace SeqCodec

/-- Which reserved-symbol argument a configuration error refers to. -/
inductive SymSlot where
  | eosSlot
  | sosSlot
  | padSlot
  | decodeSlot
  deriving DecidableEq, Repr

/-- Errors raised by the codec.  The source raises `ValueError` everywhere and
`IndexError` for the column-0 write on a zero-width grid; the spec classifies
them as `UnknownCharacterError`, `InvalidSymbolError` and `EmptyBatchError`. -/
inductive Err where
  | unknownCharacter (input vocab : String)
  | invalidSymbol (slot : SymSlot)
  | emptyBatch
  | negativeDimension
  | indexOutOfBounds
  deriving DecidableEq, Repr

/-- Python's `vocab.index(c)` for a single character: the zero-based position
of the first occurrence of `c` (unspecified-but-total when `c` is absent; the
caller checks membership first). -/
def strIndex (c : Char) : List Char → Nat
  | [] => 0
  | d :: ds => if d = c then 0 else strIndex c ds + 1

/-- Embedding of `encode_string` (src/core.py lines 18-39): map `vocab.index`
over the characters; the first absent character raises, and the error message
carries both the input string and the vocabulary. -/
def encode_string (input_string vocab : String) : Except Err (List Int) :=
  if input_string.data.all (fun c => vocab.data.contains c) then
    .ok (input_string.data.map (fun c => (strIndex c vocab.data : Int)))
  else
    .error (.unknownCharacter input_string vocab)

/-- The full encoding of one string: the code of each character, in order. -/
def codesOf (s vocab : String) : List Int :=
  s.data.map (fun c => (strIndex c vocab.data : Int))

/-- Lines 70-77 of `encode_sequences`: the effective `target_size`.  The width
is recomputed when `target_size` is absent or `dynamic_seq_length` is true;
`max` over an empty batch is the `ValueError` the spec calls
`EmptyBatchError`. -/
def computeTargetSize (sequences : List String) (target_size : Option Int)
    (sosSet padSet : Bool) (dynamic_seq_length : Bool) : Except Err Int :=
  match target_size, dynamic_seq_length with
  | some t, false => .ok t
  | _, _ =>
    if sequences.isEmpty then .error .emptyBatch
    else
      let maxLength : Int :=
        (((sequences.map String.length).foldl Nat.max 0 : Nat) : Int) + 1
          + (if sosSet then 1 else 0) + (if padSet then 1 else 0)
      .ok (match target_size with
           | none => maxLength
           | some t => min maxLength t)

/-- Lines 80-86: validate `pad` and choose the fill symbol (`pad` when given,
else `eos`). -/
def padDefault (vocab : String) (eos : Int) : Option Int → Except Err Int
  | some p =>
    if 0 ≤ p ∧ p < (vocab.length : Int) then .error (.invalidSymbol .padSlot)
    else .ok p
  | none => .ok eos

/-- One row of the grid (line 87 + line 93): `np.full` initialises every cell
to the fill symbol, then `row[:min(len(seq), ts)] = seq[:min(len(seq), ts)]`
overwrites the leading cells. -/
def fillRow (ts : Nat) (default_symbol : Int) (seq : List Int) : List Int :=
  seq.take ts ++ List.replicate (ts - seq.length) default_symbol

/-- The encoding loop of lines 90-93 over the batch: strings are encoded in
order and the first failing string raises. -/
def encodeAll (vocab : String) : List String → Except Err (List (List Int))
  | [] => .ok []
  | s :: rest =>
    match encode_string s vocab with
    | .error e => .error e
    | .ok c =>
      match encodeAll vocab rest with
      | .error e => .error e
      | .ok cs => .ok (c :: cs)

/-- Rotate a flat list right by one: what `np.roll(_, 1)` does to the
flattened data. -/
def rotr1 (xs : List Int) : List Int :=
  match xs.getLast? with
  | none => []
  | some a => a :: xs.dropLast

/-- Re-chunk a flat list into rows of the given lengths (numpy `reshape` back
to the original shape). -/
def unflatten : List Nat → List Int → List (List Int)
  | [], _ => []
  | n :: ns, xs => xs.take n :: unflatten ns (xs.drop n)

/-- `np.roll(a, 1)` on a 2D array (line 98): numpy flattens in row-major
order, rotates right by one, and reshapes to the original shape. -/
def npRoll1 (g : List (List Int)) : List (List Int) :=
  unflatten (g.map List.length) (rotr1 g.flatten)

/-- `encoded_data[:, 0] = s` (line 99): overwrite column 0 of every row. -/
def setCol0 (s : Int) (g : List (List Int)) : List (List Int) :=
  g.map (fun r =>
    match r with
    | [] => []
    | _ :: t => s :: t)

/-- Lines 67-93 of `encode_sequences`: validate `eos`, determine the width,
validate `pad` and pick the fill symbol, allocate the `N × target_size` grid
(`np.full` rejects a negative width) and fill the rows, appending `eos` to
each encoded string first when `pad` is given.  Returns the column count
together with the rows. -/
def fillPhase (sequences : List String) (vocab : String)
    (target_size : Option Int) (eos : Int) (sosSet : Bool) (pad : Option Int)
    (dynamic_seq_length : Bool) : Except Err (Nat × List (List Int)) :=
  if 0 ≤ eos ∧ eos < (vocab.length : Int) then .error (.invalidSymbol .eosSlot)
  else
    match computeTargetSize sequences target_size sosSet pad.isSome dynamic_seq_length with
    | .error e => .error e
    | .ok ts =>
      match padDefault vocab eos pad with
      | .error e => .error e
      | .ok default_symbol =>
        if ts < 0 then .error .negativeDimension
        else
          match encodeAll vocab sequences with
          | .error e => .error e
          | .ok encoded =>
            .ok (ts.toNat, encoded.map (fun seq =>
              fillRow ts.toNat default_symbol
                (if pad.isSome then seq ++ [eos] else seq)))

/-- Lines 95-99 of `encode_sequences`: when `sos` is given it is validated,
the grid is rolled by one in the flattened order, and column 0 of every row
is overwritten with `sos`; the column-0 write is an `IndexError` when the
grid has zero columns. -/
def sosPhase (vocab : String) (sos : Option Int) (ts : Nat)
    (rows : List (List Int)) : Except Err (List (List Int)) :=
  match sos with
  | none => .ok rows
  | some s =>
    if 0 ≤ s ∧ s < (vocab.length : Int) then .error (.invalidSymbol .sosSlot)
    else if ts = 0 then .error .indexOutOfBounds
    else .ok (setCol0 s (npRoll1 rows))

/-- Embedding of `encode_sequences` (src/core.py lines 42-101): the fill
phase followed by the `sos` placement. -/
def encode_sequences (sequences : List String) (vocab : String)
    (target_size : Option Int) (eos : Int) (sos : Option Int)
    (pad : Option Int) (dynamic_seq_length : Bool) :
    Except Err (List (List Int)) :=
  match fillPhase sequences vocab target_size eos sos.isSome pad dynamic_seq_length with
  | .error e => .error e
  | .ok (ts, rows) => sosPhase vocab sos ts rows

/-- Modelled from the spec: `decode_sequence(codes, vocab, eos)` is absent
from src/ (the spec adds it "for symmetry/testability though not explicit in
source").  Per the spec's words: consume the row up to (not including) the
first occurrence of `eos` (or the whole row), fail with `InvalidSymbolError`
if a code in that span falls outside `[0, V)`, otherwise map each code back
to its vocabulary character and concatenate. -/
def decode_sequence (codes : List Int) (vocab : String) (eos : Int) :
    Except Err String :=
  let pre := codes.takeWhile (fun k => k != eos)
  if pre.all (fun k => decide (0 ≤ k) && decide (k < (vocab.length : Int))) then
    .ok ⟨pre.map (fun k => vocab.data.getD k.toNat ' ')⟩
  else
    .error (.invalidSymbol .decodeSlot)

/-- The width formula exactly as claim C2 states it, written from the spec's
words (not from the code), to be compared with the width the code produces. -/
def specWidth (sequences : List String) (target_size : Option Int)
    (sosSet padSet : Bool) (dynamic_seq_length : Bool) : Int :=
  let maxLength : Int :=
    (((sequences.map String.length).foldl Nat.max 0 : Nat) : Int) + 1
      + (if sosSet then 1 else 0) + (if padSet then 1 else 0)
  match target_size, dynamic_seq_length with
  | none, _ => maxLength
  | some t, true => min maxLength t
  | some t, false => t

/-! ### Lemmas about `strIndex` -/

theorem strIndex_lt_length {c : Char} {l : List Char} (h : c ∈ l) :
    strIndex c l < l.length := by
  induction l with
  | nil => cases h
  | cons d ds ih =>
    by_cases hd : d = c
    · simp [strIndex, hd]
    · rcases List.mem_cons.mp h with h1 | h2
      · exact absurd h1.symm hd
      · simp only [strIndex, if_neg hd, List.length_cons]
        exact Nat.succ_lt_succ (ih h2)

theorem getElem?_strIndex {c : Char} {l : List Char} (h : c ∈ l) :
    l[strIndex c l]? = some c := by
  induction l with
  | nil => cases h
  | cons d ds ih =>
    by_cases hd : d = c
    · simp [strIndex, hd]
    · rcases List.mem_cons.mp h with h1 | h2
      · exact absurd h1.symm hd
      · simp [strIndex, if_neg hd, ih h2]

theorem strIndex_least {c : Char} {l : List Char} {j : Nat}
    (hj : j < strIndex c l) : l[j]? ≠ some c := by
  induction l generalizing j with
  | nil => simp [strIndex] at hj
  | cons d ds ih =>
    by_cases hd : d = c
    · simp [strIndex, hd] at hj
    · cases j with
      | zero =>
        simp only [List.getElem?_cons_zero]
        exact fun hc => hd (Option.some.inj hc)
      | succ j =>
        simp only [strIndex, if_neg hd] at hj
        simpa using ih (Nat.lt_of_succ_lt_succ hj)

/-! ### Lemmas about `encode_string` and the batch loop -/

theorem contains_iff_mem {l : List Char} {c : Char} :
    l.contains c = true ↔ c ∈ l := List.elem_iff

theorem encode_string_ok {s vocab : String} (h : ∀ c ∈ s.data, c ∈ vocab.data) :
    encode_string s vocab = .ok (codesOf s vocab) := by
  unfold encode_string codesOf
  rw [if_pos]
  exact List.all_eq_true.mpr fun c hc => contains_iff_mem.mpr (h c hc)

theorem encode_string_err {s vocab : String} (h : ∃ c ∈ s.data, c ∉ vocab.data) :
    encode_string s vocab = .error (.unknownCharacter s vocab) := by
  unfold encode_string
  rw [if_neg]
  intro hall
  obtain ⟨c, hc, hn⟩ := h
  exact hn (contains_iff_mem.mp (List.all_eq_true.mp hall c hc))

theorem encode_string_error_eq {s vocab : String} {e : Err}
    (h : encode_string s vocab = .error e) : e = .unknownCharacter s vocab := by
  unfold encode_string at h
  split at h
  · cases h
  · exact (Except.error.inj h).symm

theorem encodeAll_ok {vocab : String} {l : List String}
    (h : ∀ w ∈ l, ∀ c ∈ w.data, c ∈ vocab.data) :
    encodeAll vocab l = .ok (l.map (fun w => codesOf w vocab)) := by
  induction l with
  | nil => rfl
  | cons w ws ih =>
    have hw := encode_string_ok (h w (by simp))
    have hws := ih fun w' hw' => h w' (by simp [hw'])
    simp [encodeAll, hw, hws]

theorem encodeAll_error_eq {vocab : String} {l : List String} {e : Err}
    (h : encodeAll vocab l = .error e) :
    ∃ w ∈ l, e = .unknownCharacter w vocab := by
  induction l with
  | nil => cases h
  | cons w ws ih =>
    rw [encodeAll] at h
    split at h
    · next heq =>
      injection h with h'
      exact ⟨w, by simp, by rw [← h']; exact encode_string_error_eq heq⟩
    · split at h
      · next heq =>
        injection h with h'
        rw [h'] at heq
        obtain ⟨w', hw', he⟩ := ih heq
        exact ⟨w', by simp [hw'], he⟩
      · cases h

theorem encodeAll_err {vocab : String} {l : List String}
    (h : ∃ w ∈ l, ∃ c ∈ w.data, c ∉ vocab.data) :
    ∃ w, w ∈ l ∧ (∃ c ∈ w.data, c ∉ vocab.data) ∧
      encodeAll vocab l = .error (.unknownCharacter w vocab) := by
  induction l with
  | nil => simp at h
  | cons w ws ih =>
    by_cases hw : ∃ c ∈ w.data, c ∉ vocab.data
    · exact ⟨w, by simp, hw, by simp [encodeAll, encode_string_err hw]⟩
    · push_neg at hw
      obtain ⟨w', hw', hbad⟩ : ∃ w' ∈ ws, ∃ c ∈ w'.data, c ∉ vocab.data := by
        rcases h with ⟨x, hx, c, hc, hcn⟩
        rcases List.mem_cons.mp hx with rfl | hxs
        · exact absurd (hw c hc) hcn
        · exact ⟨x, hxs, c, hc, hcn⟩
      obtain ⟨w2, hmem, hb, heq⟩ := ih ⟨w', hw', hbad⟩
      refine ⟨w2, by simp [hmem], hb, ?_⟩
      have hok : ∃ cs, encode_string w vocab = .ok cs := by
        refine ⟨_, encode_string_ok hw⟩
      obtain ⟨cs, hcs⟩ := hok
      simp [encodeAll, hcs, heq]

theorem encodeAll_ok_length {vocab : String} {l : List String}
    {cs : List (List Int)} (h : encodeAll vocab l = .ok cs) :
    cs.length = l.length := by
  induction l generalizing cs with
  | nil => cases h; rfl
  | cons w ws ih =>
    rw [encodeAll] at h
    split at h
    · cases h
    · split at h
      · cases h
      · next heq =>
        cases h
        simpa using ih heq

/-! ### Shape lemmas -/

theorem fillRow_length (ts : Nat) (d : Int) (seq : List Int) :
    (fillRow ts d seq).length = ts := by
  simp only [fillRow, List.length_append, List.length_take, List.length_replicate]
  omega

theorem rotr1_length (xs : List Int) : (rotr1 xs).length = xs.length := by
  unfold rotr1
  cases hx : xs.getLast? with
  | none => rw [List.getLast?_eq_none_iff.mp hx]
  | some a =>
    have hne : xs ≠ [] := by
      rintro rfl
      simp at hx
    have hpos : 0 < xs.length := List.length_pos.mpr hne
    simp only [List.length_cons, List.length_dropLast]
    omega

theorem unflatten_length (ls : List Nat) (xs : List Int) :
    (unflatten ls xs).length = ls.length := by
  induction ls generalizing xs with
  | nil => rfl
  | cons n ns ih => simp [unflatten, ih]

theorem unflatten_rowlengths {ls : List Nat} {xs : List Int}
    (h : xs.length = ls.sum) : (unflatten ls xs).map List.length = ls := by
  induction ls generalizing xs with
  | nil => rfl
  | cons n ns ih =>
    simp only [List.sum_cons] at h
    have h1 : (xs.take n).length = n := by
      simp only [List.length_take]
      omega
    have h2 : (xs.drop n).length = ns.sum := by
      simp only [List.length_drop]
      omega
    simp only [unflatten, List.map_cons, h1, ih h2]

theorem setCol0_length (s : Int) (g : List (List Int)) :
    (setCol0 s g).length = g.length := by
  simp [setCol0]

theorem setCol0_rowlengths (s : Int) (g : List (List Int)) :
    (setCol0 s g).map List.length = g.map List.length := by
  induction g with
  | nil => rfl
  | cons r rest ih =>
    cases r <;> simp [setCol0] at ih ⊢ <;> exact ih

theorem npRoll1_length (g : List (List Int)) : (npRoll1 g).length = g.length := by
  simp [npRoll1, unflatten_length]

theorem npRoll1_rowlengths (g : List (List Int)) :
    (npRoll1 g).map List.length = g.map List.length := by
  unfold npRoll1
  exact unflatten_rowlengths (by rw [rotr1_length, List.length_flatten])

/-- A nonempty list rotated right by one starts with some element and continues
with the original list minus its last element. -/
theorem rotr1_of_ne_nil {xs : List Int} (h : xs ≠ []) :
    ∃ a, rotr1 xs = a :: xs.dropLast := by
  unfold rotr1
  cases hx : xs.getLast? with
  | none => exact absurd (List.getLast?_eq_none_iff.mp hx) h
  | some a => exact ⟨a, rfl⟩

theorem setCol0_cons_cons (s b : Int) (t : List Int) (g : List (List Int)) :
    setCol0 s ((b :: t) :: g) = (s :: t) :: setCol0 s g := rfl

/-- Core of claim C1: after column 0 is overwritten, the flattened roll used by
`np.roll(encoded_data, 1)` agrees with rotating every row individually.  The
auxiliary carry `c` is the value wrapped in from the previous row; it is
irrelevant because `setCol0` discards every row's head. -/
theorem setCol0_unflatten_aux {k : Nat} (hk : 0 < k) :
    ∀ (g : List (List Int)) (c s : Int), (∀ r ∈ g, r.length = k) →
      setCol0 s (unflatten (g.map List.length) (c :: g.flatten.dropLast)) =
        setCol0 s (g.map rotr1) := by
  intro g
  induction g with
  | nil => intro c s _; rfl
  | cons r rest ih =>
    intro c s hg
    have hr : r.length = k := hg r (by simp)
    have hrne : r ≠ [] := by
      rintro rfl
      simp at hr
      omega
    obtain ⟨a, ha⟩ := rotr1_of_ne_nil hrne
    have hdl : r.dropLast.length = k - 1 := by
      simp [List.length_dropLast, hr]
    cases rest with
    | nil =>
      -- single row: the flat list is `r` itself
      have htake : (c :: r.dropLast).take r.length = c :: r.dropLast := by
        apply List.take_of_length_le
        simp only [List.length_cons, hdl]
        omega
      simp only [List.map_cons, List.map_nil, List.flatten_cons, List.flatten_nil,
        List.append_nil, unflatten, htake, ha]
      rw [setCol0_cons_cons, setCol0_cons_cons]
    | cons r2 rest2 =>
      have hr2ne : r2 ≠ [] := by
        have h2 := hg r2 (by simp)
        rintro rfl
        simp at h2
        omega
      have hFne : (r2 :: rest2).flatten ≠ [] := by
        simp only [List.flatten_cons]
        intro hc
        exact hr2ne (List.append_eq_nil.mp hc).1
      -- the flat tail: `r` followed by the remaining rows minus the very last cell
      have hflat : (r :: r2 :: rest2).flatten.dropLast
          = r ++ (r2 :: rest2).flatten.dropLast := by
        rw [List.flatten_cons, List.dropLast_append_of_ne_nil _ hFne]
      -- split `r` into its initial part and its last element
      obtain ⟨x, hx⟩ : ∃ x, r.drop (k - 1) = [x] := by
        apply List.length_eq_one.mp
        simp only [List.length_drop, hr]
        omega
      have hrsplit : r = r.dropLast ++ [x] := by
        rw [List.dropLast_eq_take, hr, ← hx, List.take_append_drop]
      have htake2 : (r ++ (r2 :: rest2).flatten.dropLast).take (k - 1)
          = r.dropLast := by
        conv_lhs => rw [hrsplit, List.append_assoc]
        exact List.take_left' hdl
      have hdrop2 : (r ++ (r2 :: rest2).flatten.dropLast).drop (k - 1)
          = x :: (r2 :: rest2).flatten.dropLast := by
        conv_lhs => rw [hrsplit, List.append_assoc]
        exact List.drop_left' hdl
      have hk1 : r.length = (k - 1) + 1 := by omega
      have hmem : ∀ r' ∈ r2 :: rest2, r'.length = k := fun r' hr' =>
        hg r' (by simp [hr'])
      have htail := ih x s hmem
      have hL : unflatten ((r :: r2 :: rest2).map List.length)
          (c :: (r :: r2 :: rest2).flatten.dropLast)
          = (c :: r.dropLast) :: unflatten ((r2 :: rest2).map List.length)
              (x :: (r2 :: rest2).flatten.dropLast) := by
        rw [hflat, List.map_cons]
        simp only [unflatten]
        rw [hk1, List.take_succ_cons, List.drop_succ_cons, htake2, hdrop2]
      rw [hL]
      conv_rhs => rw [List.map_cons, ha]
      rw [setCol0_cons_cons, setCol0_cons_cons, htail]

/-- The flattened-roll-then-overwrite of the source equals a per-row rotate
followed by the same overwrite, on any rectangular grid of positive width. -/
theorem setCol0_npRoll1 {g : List (List Int)} {k : Nat} (hk : 0 < k)
    (hg : ∀ r ∈ g, r.length = k) (s : Int) :
    setCol0 s (npRoll1 g) = setCol0 s (g.map rotr1) := by
  unfold npRoll1
  cases g with
  | nil => rfl
  | cons r rest =>
    have hrne : r ≠ [] := by
      have hr := hg r (by simp)
      rintro rfl
      simp at hr
      omega
    have hfne : (r :: rest).flatten ≠ [] := by
      simp only [List.flatten_cons]
      intro hc
      exact hrne (List.append_eq_nil.mp hc).1
    obtain ⟨a, ha⟩ := rotr1_of_ne_nil hfne
    rw [ha]
    exact setCol0_unflatten_aux hk (r :: rest) a s hg

/-! ### Structural lemmas about the phases of `encode_sequences` -/

theorem computeTargetSize_error_eq {sequences target_size sosSet padSet dyn e}
    (h : computeTargetSize sequences target_size sosSet padSet dyn = .error e) :
    e = .emptyBatch := by
  unfold computeTargetSize at h
  split at h
  · cases h
  · split at h
    · exact (Except.error.inj h).symm
    · cases h

theorem padDefault_error_eq {vocab eos pad e}
    (h : padDefault vocab eos pad = .error e) : e = .invalidSymbol .padSlot := by
  unfold padDefault at h
  split at h
  · split at h
    · exact (Except.error.inj h).symm
    · cases h
  · cases h

theorem padDefault_ok_of_valid {vocab : String} {eos : Int} {pad : Option Int}
    (hpad : ∀ p, pad = some p → p < 0 ∨ (vocab.length : Int) ≤ p) :
    padDefault vocab eos pad = .ok (pad.getD eos) := by
  cases pad with
  | none => rfl
  | some p =>
    have hp := hpad p rfl
    simp only [padDefault, Option.getD_some]
    rw [if_neg]
    rintro ⟨h1, h2⟩
    rcases hp with h | h <;> omega

theorem fillPhase_ok_inv {sequences vocab target_size eos sosSet pad dyn ts rows}
    (h : fillPhase sequences vocab target_size eos sosSet pad dyn
        = .ok (ts, rows)) :
    ∃ tsI default_symbol encoded,
      computeTargetSize sequences target_size sosSet pad.isSome dyn = .ok tsI ∧
      ¬ tsI < 0 ∧ ts = tsI.toNat ∧
      padDefault vocab eos pad = .ok default_symbol ∧
      encodeAll vocab sequences = .ok encoded ∧
      rows = encoded.map (fun seq =>
        fillRow tsI.toNat default_symbol
          (if pad.isSome then seq ++ [eos] else seq)) := by
  unfold fillPhase at h
  split at h
  · cases h
  · split at h
    · cases h
    · next tsI hts =>
      split at h
      · cases h
      · next dsym hds =>
        split at h
        · cases h
        · next hneg =>
          split at h
          · cases h
          · next encoded henc =>
            injection h with h'
            injection h' with h1 h2
            exact ⟨tsI, dsym, encoded, hts, hneg, h1.symm, hds, henc, h2.symm⟩

/-- Every row produced by the fill phase has exactly `ts` cells and there is
one row per input string. -/
theorem fillPhase_ok_shape {sequences vocab target_size eos sosSet pad dyn ts rows}
    (h : fillPhase sequences vocab target_size eos sosSet pad dyn
        = .ok (ts, rows)) :
    rows.length = sequences.length ∧ ∀ r ∈ rows, r.length = ts := by
  obtain ⟨tsI, dsym, encoded, _, _, hts, _, henc, hrows⟩ := fillPhase_ok_inv h
  constructor
  · rw [hrows, List.length_map, encodeAll_ok_length henc]
  · intro r hr
    rw [hrows] at hr
    obtain ⟨seq, _, hfr⟩ := List.mem_map.mp hr
    rw [← hfr, fillRow_length, hts]

/-- Direct evaluation of the fill phase when the width is supplied, dynamic
mode is off, the symbols are valid and every character is known. -/
theorem fillPhase_eval {sequences : List String} {vocab : String} {k : Nat}
    {eos : Int} {sosSet : Bool} {pad : Option Int}
    (heos : eos < 0 ∨ (vocab.length : Int) ≤ eos)
    (hpad : ∀ p, pad = some p → p < 0 ∨ (vocab.length : Int) ≤ p)
    (hall : ∀ w ∈ sequences, ∀ c ∈ w.data, c ∈ vocab.data) :
    fillPhase sequences vocab (some (k : Int)) eos sosSet pad false =
      .ok (k, sequences.map (fun w =>
        fillRow k (pad.getD eos)
          (if pad.isSome then codesOf w vocab ++ [eos] else codesOf w vocab))) := by
  have hts : computeTargetSize sequences (some (k : Int)) sosSet pad.isSome false
      = .ok (k : Int) := rfl
  unfold fillPhase
  rw [if_neg (by rintro ⟨h1, h2⟩; rcases heos with h | h <;> omega)]
  simp only [hts, padDefault_ok_of_valid hpad, encodeAll_ok hall]
  rw [if_neg (by omega)]
  simp only [Int.toNat_natCast, List.map_map]
  rfl

theorem sosPhase_ok_inv {vocab sos ts rows g}
    (h : sosPhase vocab sos ts rows = .ok g) :
    (sos = none ∧ g = rows) ∨
      (∃ s, sos = some s ∧ ts ≠ 0 ∧ g = setCol0 s (npRoll1 rows)) := by
  unfold sosPhase at h
  split at h
  · exact Or.inl ⟨rfl, (Except.ok.inj h).symm⟩
  · next s =>
    split at h
    · cases h
    · split at h
      · cases h
      · next hts => exact Or.inr ⟨s, rfl, hts, (Except.ok.inj h).symm⟩

/-- Inversion for a successful `encode_sequences` call. -/
theorem encode_sequences_ok_inv {sequences vocab target_size eos sos pad dyn g}
    (h : encode_sequences sequences vocab target_size eos sos pad dyn = .ok g) :
    ∃ ts rows,
      fillPhase sequences vocab target_size eos sos.isSome pad dyn
        = .ok (ts, rows) ∧
      ((sos = none ∧ g = rows) ∨
       (∃ s, sos = some s ∧ ts ≠ 0 ∧ g = setCol0 s (npRoll1 rows))) := by
  unfold encode_sequences at h
  cases hfp : fillPhase sequences vocab target_size eos sos.isSome pad dyn with
  | error e => rw [hfp] at h; cases h
  | ok p =>
    obtain ⟨ts, rows⟩ := p
    rw [hfp] at h
    exact ⟨ts, rows, rfl, sosPhase_ok_inv h⟩

/-- The width the code computes agrees with the spec's width formula on every
non-empty batch. -/
theorem computeTargetSize_eq_specWidth {sequences target_size sosSet padSet dyn t}
    (hne : sequences ≠ [])
    (h : computeTargetSize sequences target_size sosSet padSet dyn = .ok t) :
    t = specWidth sequences target_size sosSet padSet dyn := by
  unfold computeTargetSize at h
  unfold specWidth
  split at h
  · next heq =>
    injection h with h'
    rw [← h']
  · next hmatch =>
    rw [if_neg (by simpa using hne)] at h
    injection h with h'
    rw [← h']
    cases target_size with
    | none => rfl
    | some t' =>
      cases dyn with
      | false => exact (hmatch t' rfl rfl).elim
      | true => rfl

/-! ### Error characterization -/

theorem fillPhase_eos_invalid {sequences vocab target_size eos sosSet pad dyn}
    (h : 0 ≤ eos ∧ eos < (vocab.length : Int)) :
    fillPhase sequences vocab target_size eos sosSet pad dyn
      = .error (.invalidSymbol .eosSlot) := by
  unfold fillPhase
  rw [if_pos h]

theorem fillPhase_error_inv {sequences vocab target_size eos sosSet pad dyn e}
    (h : fillPhase sequences vocab target_size eos sosSet pad dyn = .error e) :
    (e = .invalidSymbol .eosSlot ∧ 0 ≤ eos ∧ eos < (vocab.length : Int)) ∨
    (computeTargetSize sequences target_size sosSet pad.isSome dyn
        = .error .emptyBatch ∧ e = .emptyBatch) ∨
    e = .invalidSymbol .padSlot ∨ e = .negativeDimension ∨
    (∃ w ∈ sequences, e = .unknownCharacter w vocab) := by
  unfold fillPhase at h
  split at h
  · next hin => exact Or.inl ⟨(Except.error.inj h).symm, hin⟩
  · split at h
    · next heq =>
      injection h with h'
      have he := computeTargetSize_error_eq heq
      subst he
      exact Or.inr (Or.inl ⟨h' ▸ heq, h'.symm⟩)
    · split at h
      · next heq =>
        injection h with h'
        exact Or.inr (Or.inr (Or.inl (h'.symm.trans (padDefault_error_eq heq))))
      · split at h
        · exact Or.inr (Or.inr (Or.inr (Or.inl (Except.error.inj h).symm)))
        · split at h
          · next heq =>
            injection h with h'
            rw [h'] at heq
            exact Or.inr (Or.inr (Or.inr (Or.inr (encodeAll_error_eq heq))))
          · cases h

theorem sosPhase_error_inv {vocab sos ts rows e}
    (h : sosPhase vocab sos ts rows = .error e) :
    e = .invalidSymbol .sosSlot ∨ e = .indexOutOfBounds := by
  unfold sosPhase at h
  split at h
  · cases h
  · split at h
    · exact Or.inl (Except.error.inj h).symm
    · split at h
      · exact Or.inr (Except.error.inj h).symm
      · cases h

theorem encode_sequences_error_inv {sequences vocab target_size eos sos pad dyn e}
    (h : encode_sequences sequences vocab target_size eos sos pad dyn
        = .error e) :
    fillPhase sequences vocab target_size eos sos.isSome pad dyn = .error e ∨
    ∃ ts rows,
      fillPhase sequences vocab target_size eos sos.isSome pad dyn
        = .ok (ts, rows) ∧ sosPhase vocab sos ts rows = .error e := by
  unfold encode_sequences at h
  cases hfp : fillPhase sequences vocab target_size eos sos.isSome pad dyn with
  | error e' =>
    rw [hfp] at h
    refine Or.inl ?_
    rw [← Except.error.inj h]
  | ok p =>
    obtain ⟨ts, rows⟩ := p
    rw [hfp] at h
    exact Or.inr ⟨ts, rows, rfl, h⟩

theorem computeTargetSize_empty {target_size : Option Int} {sosSet padSet dyn}
    (hcase : target_size = none ∨ dyn = true) :
    computeTargetSize ([] : List String) target_size sosSet padSet dyn
      = .error .emptyBatch := by
  cases target_size with
  | none => cases dyn <;> rfl
  | some t =>
    rcases hcase with hc | hc
    · cases hc
    · rw [hc]
      rfl

/-! ### Range of the produced codes -/

theorem codesOf_length (s vocab : String) :
    (codesOf s vocab).length = s.length := by
  simp [codesOf]

theorem codesOf_mem_range {s vocab : String}
    (hall : ∀ c ∈ s.data, c ∈ vocab.data) :
    ∀ x ∈ codesOf s vocab, 0 ≤ x ∧ x < (vocab.length : Int) := by
  intro x hx
  obtain ⟨c, hc, rfl⟩ := List.mem_map.mp hx
  refine ⟨Int.natCast_nonneg _, ?_⟩
  have := strIndex_lt_length (hall c hc)
  exact_mod_cast this

theorem takeWhile_eq_self_of_all {p : Int → Bool} {l : List Int}
    (h : ∀ x ∈ l, p x = true) : l.takeWhile p = l := by
  induction l with
  | nil => rfl
  | cons a t ih =>
    rw [List.takeWhile_cons_of_pos (h a (by simp))]
    rw [ih fun x hx => h x (by simp [hx])]

/-! ### The claims -/

/-- C3, counterexample: the claim says an empty batch always fails fast with
`EmptyBatchError` "regardless of the other arguments" — but with a supplied
`target_size` and `dynamic_seq_length` off the `max` over the batch is never
evaluated and the call returns an empty grid. -/
theorem claim_C3_counterexample :
    encode_sequences [] "ab" (some 3) (-1) none none false = .ok [] := rfl

/-- C3, amended: with a valid `eos`, an empty batch fails with
`EmptyBatchError` exactly when the width must be computed, i.e. when
`target_size` is absent or `dynamic_seq_length` is true; when a `target_size`
is supplied and `dynamic_seq_length` is false, the call never fails with
`EmptyBatchError`. -/
theorem claim_C3 (vocab : String) (target_size : Option Int) (eos : Int)
    (sos pad : Option Int) (dyn : Bool)
    (heos : eos < 0 ∨ (vocab.length : Int) ≤ eos) :
    (target_size = none ∨ dyn = true →
      encode_sequences [] vocab target_size eos sos pad dyn
        = .error .emptyBatch) ∧
    (∀ t : Int, encode_sequences [] vocab (some t) eos sos pad false
        ≠ .error .emptyBatch) := by
  constructor
  · intro hcase
    unfold encode_sequences fillPhase
    rw [if_neg (by rintro ⟨h1, h2⟩; rcases heos with h | h <;> omega)]
    simp only [computeTargetSize_empty hcase]
  · intro t hc
    rcases encode_sequences_error_inv hc with hf | ⟨ts, rows, hok, hs⟩
    · rcases fillPhase_error_inv hf with ⟨he, hin⟩ | ⟨hcts, he⟩ | he | he | ⟨w, hw, he⟩
      · rcases heos with h | h <;> omega
      · rw [show computeTargetSize [] (some t) sos.isSome pad.isSome false
            = .ok t from rfl] at hcts
        cases hcts
      · cases he
      · cases he
      · cases hw
    · rcases sosPhase_error_inv hs with he | he <;> cases he

/-- C3 witness for the amended claim, at the spec's own configuration. -/
theorem claim_C3_witness :
    encode_sequences [] "ab" none (-1) none none false = .error .emptyBatch ∧
    encode_sequences [] "ab" (some 3) (-1) none none false
      ≠ .error .emptyBatch :=
  ⟨(claim_C3 "ab" none (-1) none none false (by decide)).1 (Or.inl rfl),
   (claim_C3 "ab" (some 3) (-1) none none false (by decide)).2 3⟩

/-- C6: `encode_sequences` fails with the `eos` `InvalidSymbolError` exactly
when `0 ≤ eos < V`, regardless of the batch and the other arguments; an
out-of-vocabulary `eos` never produces that error. -/
theorem claim_C6 (sequences : List String) (vocab : String)
    (target_size : Option Int) (eos : Int) (sos pad : Option Int) (dyn : Bool) :
    (0 ≤ eos ∧ eos < (vocab.length : Int) →
      encode_sequences sequences vocab target_size eos sos pad dyn
        = .error (.invalidSymbol .eosSlot)) ∧
    (eos < 0 ∨ (vocab.length : Int) ≤ eos →
      encode_sequences sequences vocab target_size eos sos pad dyn
        ≠ .error (.invalidSymbol .eosSlot)) := by
  constructor
  · intro h
    unfold encode_sequences
    simp only [fillPhase_eos_invalid h]
  · intro heos hc
    rcases encode_sequences_error_inv hc with hf | ⟨ts, rows, hok, hs⟩
    · rcases fillPhase_error_inv hf with ⟨he, hin⟩ | ⟨hcts, he⟩ | he | he | ⟨w, hw, he⟩
      · rcases heos with h | h <;> omega
      · cases he
      · simp at he
      · cases he
      · cases he
    · rcases sosPhase_error_inv hs with he | he
      · simp at he
      · cases he

/-- C6 witness: an in-vocabulary `eos` (1 with `V = 2`) fails, `-1` does not. -/
theorem claim_C6_witness :
    encode_sequences ["a"] "ab" none 1 none none false
      = .error (.invalidSymbol .eosSlot) ∧
    encode_sequences ["a"] "ab" none (-1) none none false
      ≠ .error (.invalidSymbol .eosSlot) :=
  ⟨(claim_C6 ["a"] "ab" none 1 none none false).1 (by decide),
   (claim_C6 ["a"] "ab" none (-1) none none false).2 (by decide)⟩

/-- C7: `encode_string` fails with `UnknownCharacterError` — carrying the
offending string and the vocabulary — exactly when some character of the
string is absent from the vocabulary; otherwise it returns, in order, the
zero-based position of the first occurrence of each character in the
vocabulary. -/
theorem claim_C7 (s vocab : String) :
    ((∃ c ∈ s.data, c ∉ vocab.data) →
      encode_string s vocab = .error (.unknownCharacter s vocab)) ∧
    ((∀ c ∈ s.data, c ∈ vocab.data) →
      ∃ codes, encode_string s vocab = .ok codes ∧
        List.Forall₂ (fun (k : Int) (c : Char) =>
          0 ≤ k ∧ vocab.data[k.toNat]? = some c ∧
          ∀ j < k.toNat, vocab.data[j]? ≠ some c) codes s.data) := by
  refine ⟨encode_string_err, fun h => ⟨codesOf s vocab, encode_string_ok h, ?_⟩⟩
  unfold codesOf
  rw [List.forall₂_map_left_iff, List.forall₂_same]
  intro c hc
  refine ⟨Int.natCast_nonneg _, ?_, ?_⟩
  · rw [Int.toNat_natCast]
    exact getElem?_strIndex (h c hc)
  · intro j hj
    rw [Int.toNat_natCast] at hj
    exact strIndex_least hj

/-- C7 witness: `"ax"` fails over vocab `"ab"`, `"ba"` encodes to positions. -/
theorem claim_C7_witness :
    encode_string "ax" "ab" = .error (.unknownCharacter "ax" "ab") ∧
    ∃ codes, encode_string "ba" "ab" = .ok codes ∧
      List.Forall₂ (fun (k : Int) (c : Char) =>
        0 ≤ k ∧ "ab".data[k.toNat]? = some c ∧
        ∀ j < k.toNat, "ab".data[j]? ≠ some c) codes "ba".data :=
  ⟨(claim_C7 "ax" "ab").1 ⟨'x', by decide, by decide⟩,
   (claim_C7 "ba" "ab").2 (by decide)⟩

/-- C8: for a duplicate-free vocabulary and a string over it, decoding the
encoding (with any out-of-vocabulary `eos`) returns the original string. -/
theorem claim_C8 (s vocab : String) (eos : Int)
    (_hnodup : vocab.data.Nodup)
    (hs : ∀ c ∈ s.data, c ∈ vocab.data)
    (heos : eos < 0 ∨ (vocab.length : Int) ≤ eos) :
    encode_string s vocab = .ok (codesOf s vocab) ∧
    decode_sequence (codesOf s vocab) vocab eos = .ok s := by
  refine ⟨encode_string_ok hs, ?_⟩
  have hrange := codesOf_mem_range hs
  unfold decode_sequence
  rw [@takeWhile_eq_self_of_all (fun k => k != eos) (codesOf s vocab)
      (fun x hx => bne_iff_ne.mpr (by
        rcases hrange x hx with ⟨h0, hV⟩
        rcases heos with h | h <;> omega))]
  rw [if_pos (List.all_eq_true.mpr fun x hx => by
    rcases hrange x hx with ⟨h0, hV⟩
    simp [h0, hV])]
  have hmap : (codesOf s vocab).map (fun k => vocab.data.getD k.toNat ' ')
      = s.data := by
    unfold codesOf
    rw [List.map_map]
    have hpt : ∀ c ∈ s.data,
        vocab.data.getD ((strIndex c vocab.data : Int)).toNat ' ' = c := by
      intro c hc
      rw [Int.toNat_natCast, List.getD_eq_getElem?_getD,
        getElem?_strIndex (hs c hc), Option.getD_some]
    calc s.data.map ((fun k : Int => vocab.data.getD k.toNat ' ')
            ∘ fun c => (strIndex c vocab.data : Int))
        = s.data.map id := List.map_congr_left fun c hc => hpt c hc
      _ = s.data := List.map_id _
  rw [hmap]

/-- C8 witness at `s = "aba"`, vocab `"ab"`, `eos = -1`. -/
theorem claim_C8_witness :
    encode_string "aba" "ab" = .ok (codesOf "aba" "ab") ∧
    decode_sequence (codesOf "aba" "ab") "ab" (-1) = .ok "aba" :=
  claim_C8 "aba" "ab" (-1) (by decide) (by decide) (by decide)

/-- C4: with a fixed supplied width `k`, no `sos` and no `pad`, a valid `eos`
and a fully-known batch, a string strictly longer than `k` raises no error
and its row is the first `k` codes of its full encoding (silent truncation). -/
theorem claim_C4 (sequences : List String) (vocab : String) (k : Nat)
    (eos : Int) (i : Nat) (s : String)
    (heos : eos < 0 ∨ (vocab.length : Int) ≤ eos)
    (hall : ∀ w ∈ sequences, ∀ c ∈ w.data, c ∈ vocab.data)
    (hi : sequences[i]? = some s) (hlen : k < s.length) :
    ∃ g, encode_sequences sequences vocab (some (k : Int)) eos none none false
        = .ok g ∧
      g[i]? = some ((codesOf s vocab).take k) := by
  have hfp := @fillPhase_eval sequences vocab k eos false none heos
      (by intro q hq; cases hq) hall
  simp only [Option.getD_none, Option.isSome_none, Bool.false_eq_true,
    if_false] at hfp
  refine ⟨sequences.map (fun w => fillRow k eos (codesOf w vocab)), ?_, ?_⟩
  · unfold encode_sequences
    simp only [Option.isSome_none, hfp, sosPhase]
  · rw [List.getElem?_map, hi, Option.map_some']
    have hrow : fillRow k eos (codesOf s vocab) = (codesOf s vocab).take k := by
      unfold fillRow
      rw [codesOf_length, show k - s.length = 0 from by omega,
        List.replicate_zero, List.append_nil]
    rw [hrow]

/-- C4 witness: `"aba"` over vocab `"ab"` with width 2 truncates to `[0, 1]`. -/
theorem claim_C4_witness :
    (∃ g, encode_sequences ["aba"] "ab" (some 2) (-1) none none false
        = .ok g ∧
      g[0]? = some ((codesOf "aba" "ab").take 2)) ∧
    (codesOf "aba" "ab").take 2 = [0, 1] :=
  ⟨claim_C4 ["aba"] "ab" 2 (-1) 0 "aba" (by decide) (by decide) rfl (by decide),
   by decide⟩

/-- C5: with `pad` set, no `sos` and a string shorter than the supplied
width, the row is the string's codes, then one `eos`, then `pad` cells. -/
theorem claim_C5 (sequences : List String) (vocab : String) (ts : Nat)
    (eos p : Int) (i : Nat) (s : String)
    (heos : eos < 0 ∨ (vocab.length : Int) ≤ eos)
    (hp : p < 0 ∨ (vocab.length : Int) ≤ p)
    (hall : ∀ w ∈ sequences, ∀ c ∈ w.data, c ∈ vocab.data)
    (hi : sequences[i]? = some s) (hlen : s.length < ts) :
    ∃ g, encode_sequences sequences vocab (some (ts : Int)) eos none (some p)
        false = .ok g ∧
      g[i]? = some (codesOf s vocab ++ [eos]
        ++ List.replicate (ts - (s.length + 1)) p) := by
  have hfp := @fillPhase_eval sequences vocab ts eos false (some p) heos
      (by intro q hq; injection hq with hq'; exact hq' ▸ hp) hall
  simp only [Option.getD_some, Option.isSome_some, if_true] at hfp
  refine ⟨sequences.map (fun w => fillRow ts p (codesOf w vocab ++ [eos])),
    ?_, ?_⟩
  · unfold encode_sequences
    simp only [Option.isSome_none, hfp, sosPhase]
  · rw [List.getElem?_map, hi, Option.map_some']
    have hrow : fillRow ts p (codesOf s vocab ++ [eos])
        = codesOf s vocab ++ [eos] ++ List.replicate (ts - (s.length + 1)) p := by
      unfold fillRow
      rw [List.take_of_length_le (by
        simp only [List.length_append, List.length_cons, List.length_nil,
          codesOf_length]
        omega)]
      rw [List.length_append, codesOf_length]
      simp [List.append_assoc]
    rw [hrow]

/-- C5 witness: the spec's scenario `vocab="ab"`, `eos=-1`, `pad=-2`,
`sequences=["a"]`, `target_size=4` yields the row `[0, -1, -2, -2]`. -/
theorem claim_C5_witness :
    (∃ g, encode_sequences ["a"] "ab" (some 4) (-1) none (some (-2)) false
        = .ok g ∧
      g[0]? = some (codesOf "a" "ab" ++ [-1]
        ++ List.replicate (4 - ("a".length + 1)) (-2))) ∧
    codesOf "a" "ab" ++ [-1] ++ List.replicate (4 - ("a".length + 1)) (-2)
      = [0, -1, -2, -2] :=
  ⟨claim_C5 ["a"] "ab" 4 (-1) (-2) 0 "a" (by decide) (by decide) (by decide)
      rfl (by decide),
   by decide⟩

/-- C9: with `pad` set, no `sos` and a string at least as long as the
supplied width, the whole row is vocabulary codes (the string's first
`target_size` codes) — the appended `eos` is truncated away, so the row
contains neither `eos` nor `pad` and no end-of-content marker remains. -/
theorem claim_C9 (sequences : List String) (vocab : String) (ts : Nat)
    (eos p : Int) (i : Nat) (s : String)
    (heos : eos < 0 ∨ (vocab.length : Int) ≤ eos)
    (hp : p < 0 ∨ (vocab.length : Int) ≤ p)
    (hall : ∀ w ∈ sequences, ∀ c ∈ w.data, c ∈ vocab.data)
    (hi : sequences[i]? = some s) (hlen : ts ≤ s.length) :
    ∃ g row, encode_sequences sequences vocab (some (ts : Int)) eos none
        (some p) false = .ok g ∧
      g[i]? = some row ∧
      row = (codesOf s vocab).take ts ∧
      (∀ x ∈ row, 0 ≤ x ∧ x < (vocab.length : Int)) ∧
      eos ∉ row ∧ p ∉ row := by
  have hfp := @fillPhase_eval sequences vocab ts eos false (some p) heos
      (by intro q hq; injection hq with hq'; exact hq' ▸ hp) hall
  simp only [Option.getD_some, Option.isSome_some, if_true] at hfp
  have hs : s ∈ sequences := by
    have := List.getElem?_eq_some_iff.mp hi
    obtain ⟨hlt, hget⟩ := this
    exact hget ▸ List.getElem_mem hlt
  have hrow : fillRow ts p (codesOf s vocab ++ [eos])
      = (codesOf s vocab).take ts := by
    unfold fillRow
    rw [List.length_append, codesOf_length,
      show ts - (s.length + List.length [eos]) = 0 from by simp; omega,
      List.replicate_zero, List.append_nil]
    have hsplit : codesOf s vocab ++ [eos]
        = (codesOf s vocab).take ts
          ++ ((codesOf s vocab).drop ts ++ [eos]) := by
      rw [← List.append_assoc, List.take_append_drop]
    rw [hsplit]
    exact List.take_left' (by rw [List.length_take, codesOf_length]; omega)
  have hmemrange : ∀ x ∈ (codesOf s vocab).take ts,
      0 ≤ x ∧ x < (vocab.length : Int) := fun x hx =>
    codesOf_mem_range (hall s hs) x (List.mem_of_mem_take hx)
  refine ⟨sequences.map (fun w => fillRow ts p (codesOf w vocab ++ [eos])),
    (codesOf s vocab).take ts, ?_, ?_, rfl, hmemrange, ?_, ?_⟩
  · unfold encode_sequences
    simp only [Option.isSome_none, hfp, sosPhase]
  · rw [List.getElem?_map, hi, Option.map_some', hrow]
  · intro hce
    rcases hmemrange eos hce with ⟨h0, hV⟩
    rcases heos with h | h <;> omega
  · intro hcp
    rcases hmemrange p hcp with ⟨h0, hV⟩
    rcases hp with h | h <;> omega

/-- C9 witness: `"abab"` over `"ab"` with width 3 and `pad=-2` gives the row
`[0, 1, 0]`, containing neither `eos` nor `pad`. -/
theorem claim_C9_witness :
    ∃ g row, encode_sequences ["abab"] "ab" (some 3) (-1) none (some (-2))
        false = .ok g ∧
      g[0]? = some row ∧
      row = (codesOf "abab" "ab").take 3 ∧
      (∀ x ∈ row, 0 ≤ x ∧ x < ("ab".length : Int)) ∧
      (-1 : Int) ∉ row ∧ (-2 : Int) ∉ row :=
  claim_C9 ["abab"] "ab" 3 (-1) (-2) 0 "abab" (by decide) (by decide)
    (by decide) rfl (by decide)

/-- C10: `eos` is validated first, `pad` before the encoding loop, and `sos`
only after every batch string has been encoded; hence a batch containing an
unknown character together with an in-vocabulary `sos` raises
`UnknownCharacterError`, not the `sos` `InvalidSymbolError`. -/
theorem claim_C10 (sequences : List String) (vocab : String)
    (target_size : Option Int) (eos : Int) (s : Int) (pad : Option Int)
    (dyn : Bool) (t : Int)
    (heos : eos < 0 ∨ (vocab.length : Int) ≤ eos)
    (_hsos : 0 ≤ s ∧ s < (vocab.length : Int))
    (hpad : ∀ q, pad = some q → q < 0 ∨ (vocab.length : Int) ≤ q)
    (hts : computeTargetSize sequences target_size true pad.isSome dyn = .ok t)
    (ht0 : 0 ≤ t)
    (hbad : ∃ w ∈ sequences, ∃ c ∈ w.data, c ∉ vocab.data) :
    ∃ w, w ∈ sequences ∧ (∃ c ∈ w.data, c ∉ vocab.data) ∧
      encode_sequences sequences vocab target_size eos (some s) pad dyn
        = .error (.unknownCharacter w vocab) := by
  obtain ⟨w, hmem, hb, henc⟩ := encodeAll_err hbad
  refine ⟨w, hmem, hb, ?_⟩
  unfold encode_sequences fillPhase
  rw [if_neg (by rintro ⟨h1, h2⟩; rcases heos with h | h <;> omega)]
  simp only [Option.isSome_some, hts, padDefault_ok_of_valid hpad]
  rw [if_neg (by omega)]
  simp only [henc]

/-- C10 witness: batch `["ax"]` with unknown `'x'` and invalid `sos = 1`
raises the unknown-character error, not the `sos` error. -/
theorem claim_C10_witness :
    ∃ w, w ∈ ["ax"] ∧ (∃ c ∈ w.data, c ∉ "ab".data) ∧
      encode_sequences ["ax"] "ab" none (-1) (some 1) none false
        = .error (.unknownCharacter w "ab") :=
  claim_C10 ["ax"] "ab" none (-1) 1 none false 4 (by decide) (by decide)
    (by intro q hq; cases hq) rfl (by decide) (by decide)

/-- C2: on a non-empty batch, a returned grid has one row per input string
and every row's length is the width the spec's formula prescribes
(`specWidth`): computed `max_length` when `target_size` is absent,
`min(max_length, target_size)` under dynamic mode, and exactly `target_size`
otherwise. -/
theorem claim_C2 (sequences : List String) (vocab : String)
    (target_size : Option Int) (eos : Int) (sos pad : Option Int) (dyn : Bool)
    (g : List (List Int)) (hne : sequences ≠ [])
    (hok : encode_sequences sequences vocab target_size eos sos pad dyn
        = .ok g) :
    g.length = sequences.length ∧
    ∀ r ∈ g, (r.length : Int)
      = specWidth sequences target_size sos.isSome pad.isSome dyn := by
  obtain ⟨ts, rows, hfp, hcase⟩ := encode_sequences_ok_inv hok
  obtain ⟨tsI, dsym, encoded, hcts, hneg, htsn, hds, henc, hrows⟩ :=
    fillPhase_ok_inv hfp
  have hwidth : (ts : Int)
      = specWidth sequences target_size sos.isSome pad.isSome dyn := by
    rw [htsn, Int.toNat_of_nonneg (by omega),
      computeTargetSize_eq_specWidth hne hcts]
  obtain ⟨hlen, hrowlen⟩ := fillPhase_ok_shape hfp
  rcases hcase with ⟨hnone, hg⟩ | ⟨s, hsome, hts0, hg⟩
  · subst hg
    exact ⟨hlen, fun r hr => by rw [hrowlen r hr]; exact hwidth⟩
  · subst hg
    constructor
    · rw [setCol0_length, npRoll1_length, hlen]
    · intro r hr
      have hmaps : (setCol0 s (npRoll1 rows)).map List.length
          = rows.map List.length := by
        rw [setCol0_rowlengths, npRoll1_rowlengths]
      have hmem : r.length ∈ (setCol0 s (npRoll1 rows)).map List.length :=
        List.mem_map_of_mem _ hr
      rw [hmaps] at hmem
      obtain ⟨r', hr', hlen'⟩ := List.mem_map.mp hmem
      rw [← hlen', hrowlen r' hr']
      exact hwidth

/-- C2 witness: the spec's no-symbol scenario: batch `["a", "ba"]`, computed
width 3, grid `[[0,-1,-1],[1,0,-1]]` of shape 2 × 3. -/
theorem claim_C2_witness :
    encode_sequences ["a", "ba"] "ab" none (-1) none none false
      = .ok [[0, -1, -1], [1, 0, -1]] ∧
    ([[0, -1, -1], [1, 0, -1]] : List (List Int)).length
      = (["a", "ba"] : List String).length ∧
    ∀ r ∈ ([[0, -1, -1], [1, 0, -1]] : List (List Int)),
      (r.length : Int) = specWidth ["a", "ba"] none false false false :=
  ⟨rfl, claim_C2 ["a", "ba"] "ab" none (-1) none none false
    [[0, -1, -1], [1, 0, -1]] (by simp) rfl⟩

/-- C1: whenever `encode_sequences` with `sos` set returns a grid, that grid
equals the fill-phase grid of the same call (rows filled as in the sos-less
case, at the same width) with every row shifted one position right with
wrap-around and column 0 then overwritten by `sos`. -/
theorem claim_C1 (sequences : List String) (vocab : String)
    (target_size : Option Int) (eos s : Int) (pad : Option Int) (dyn : Bool)
    (g : List (List Int))
    (hok : encode_sequences sequences vocab target_size eos (some s) pad dyn
        = .ok g) :
    ∃ ts rows,
      fillPhase sequences vocab target_size eos true pad dyn = .ok (ts, rows) ∧
      g = setCol0 s (rows.map rotr1) := by
  obtain ⟨ts, rows, hfp, hcase⟩ := encode_sequences_ok_inv hok
  rcases hcase with ⟨hnone, _⟩ | ⟨s', hsome, hts0, hg⟩
  · cases hnone
  · injection hsome with hs'
    subst hs'
    obtain ⟨_, hrowlen⟩ := fillPhase_ok_shape hfp
    refine ⟨ts, rows, hfp, ?_⟩
    rw [hg]
    exact setCol0_npRoll1 (Nat.pos_of_ne_zero hts0) hrowlen s

/-- C1 witness: the spec's `sos` scenario: `vocab="ab"`, `eos=-1`, `sos=-3`,
`sequences=["a"]`, `target_size=3` returns `[[-3, 0, -1]]`, which is the
per-row wrap-shift of the fill-phase grid with column 0 forced to `sos`. -/
theorem claim_C1_witness :
    encode_sequences ["a"] "ab" (some 3) (-1) (some (-3)) none false
      = .ok [[-3, 0, -1]] ∧
    ∃ ts rows,
      fillPhase ["a"] "ab" (some 3) (-1) true none false = .ok (ts, rows) ∧
      [[-3, 0, -1]] = setCol0 (-3) (rows.map rotr1) :=
  ⟨rfl, claim_C1 ["a"] "ab" (some 3) (-1) (-3) none false [[-3, 0, -1]] rfl⟩

end SeqCodec
